import Mathlib

/-
  Verification of the EPICS `resourceLib.h` resource table (linear hashing,
  integer/string identifier hashes, chronological id allocation).

  The C++ templates are shallowly embedded: the intrusive singly linked
  bucket chains (`tsSLList`) become Lean lists (push front = cons, pop
  front = head/tail, unlink-successor-of-predecessor = removal of the
  matched element), the bucket array becomes a total function from bucket
  index to chain (indices at or beyond the occupied region hold the empty
  chain, matching the freshly constructed heads of the C array), and
  machine unsigned arithmetic becomes Nat arithmetic (the operations used
  here - bitwise and, xor, shift right - never overflow).
-/

namespace ResourceLib

/-- The integer folding loop of `integerHash` (resourceLib.h lines 740-770):
    a do-while loop `do { width >>= 1; hashid ^= hashid >> width; } while
    (width > MIN_INDEX_WIDTH)`.  The loop halves `width` each iteration and
    stops as soon as `width <= MIN`, so `width + 1` units of fuel always
    suffice; the fuel-exhaustion branch is unreachable from `integerHash`. -/
def ihGo (MIN : Nat) : Nat → Nat → Nat → Nat
  | 0, _, h => h
  | fuel + 1, width, h =>
    let w := width >>> 1
    let h2 := h ^^^ (h >>> w)
    if MIN < w then ihGo MIN fuel w h2 else h2

/-- `integerHash ( MIN_INDEX_WIDTH, MAX_ID_WIDTH, id )`, resourceLib.h
    lines 740-770.  The do-while body always executes at least once. -/
def integerHash (MIN MAX id : Nat) : Nat :=
  ihGo MIN (MAX + 1) MAX id

/-- State of `resTable<T,ID>`: the bucket-head array (modelled as a total
    function; unoccupied indices hold `[]`), `nextSplitIndex`, `hashIxMask`,
    `hashIxSplitMask` and `nInUse` (resourceLib.h lines 123-128). -/
structure ResTable (Rec : Type) where
  buckets : Nat → List Rec
  nextSplitIndex : Nat
  hashIxMask : Nat
  hashIxSplitMask : Nat
  nInUse : Nat

/-- The identifier contract consumed by `resTable` (resourceLib.h notes
    3 and 4): records expose an identifier, identifiers have an equality
    test and a hash. -/
structure ResModel (Rec ID : Type) where
  getId : Rec → ID
  idEq : ID → ID → Bool
  idHash : ID → Nat

/-- `resTable::tableSize`, resourceLib.h lines 440-444. -/
def tableSize {Rec : Type} (tbl : ResTable Rec) : Nat :=
  (tbl.hashIxMask + 1) + tbl.nextSplitIndex

/-- The bucket-index computation of `resTable::hash` on a raw hash value
    (resourceLib.h lines 313-322). -/
def hashVal (h mask smask s : Nat) : Nat :=
  let h0 := h &&& mask
  if s ≤ h0 then h0 else h &&& smask

/-- `resTable::hash ( const ID & )`, resourceLib.h lines 313-322. -/
def rtHash {Rec ID : Type} (M : ResModel Rec ID) (tbl : ResTable Rec) (idIn : ID) : Nat :=
  hashVal (M.idHash idIn) tbl.hashIxMask tbl.hashIxSplitMask tbl.nextSplitIndex

/-- `resTable::find`, resourceLib.h lines 525-537: first chain member whose
    identifier compares equal (the stored identifier on the left of the
    comparison, the query on the right). -/
def rtFind {Rec ID : Type} (M : ResModel Rec ID) (list : List Rec) (idIn : ID) : Option Rec :=
  list.find? (fun r => M.idEq (M.getId r) idIn)

/-- `resTable::findDelete`, resourceLib.h lines 549-571: unlink the first
    matching record, returning it and the remaining chain. -/
def rtFindDelete {Rec ID : Type} (M : ResModel Rec ID) :
    List Rec → ID → Option Rec × List Rec
  | [], _ => (none, [])
  | p :: rest, idIn =>
    if M.idEq (M.getId p) idIn then (some p, rest)
    else
      let r := rtFindDelete M rest idIn
      (r.1, p :: r.2)

/-- Pointwise update of the bucket array at one index. -/
def updBuckets {Rec : Type} (f : Nat → List Rec) (i : Nat) (l : List Rec) : Nat → List Rec :=
  fun j => if j = i then l else f j

/-- `resTable::lookup`, resourceLib.h lines 303-308. -/
def rtLookup {Rec ID : Type} (M : ResModel Rec ID) (tbl : ResTable Rec) (idIn : ID) :
    Option Rec :=
  rtFind M (tbl.buckets (rtHash M tbl idIn)) idIn

/-- `resTable::remove`, resourceLib.h lines 291-296: `findDelete` on the
    hashed bucket; `nInUse` is decremented exactly when a record is found. -/
def rtRemove {Rec ID : Type} (M : ResModel Rec ID) (tbl : ResTable Rec) (idIn : ID) :
    ResTable Rec × Option Rec :=
  let b := rtHash M tbl idIn
  let fd := rtFindDelete M (tbl.buckets b) idIn
  if fd.1.isSome then
    ({ tbl with buckets := updBuckets tbl.buckets b fd.2, nInUse := tbl.nInUse - 1 }, fd.1)
  else (tbl, none)

/-- The rehash loop at the end of `resTable::splitBucket` (resourceLib.h
    lines 485-494): pop each record off the detached chain and push it onto
    the front of the bucket it now hashes to. -/
def rehashAll {Rec ID : Type} (M : ResModel Rec ID) (tbl : ResTable Rec) :
    List Rec → ResTable Rec
  | [] => tbl
  | p :: rest =>
    let i := rtHash M tbl (M.getId p)
    rehashAll M { tbl with buckets := updBuckets tbl.buckets i (p :: tbl.buckets i) } rest

/-- Phase one of `resTable::splitBucket` (resourceLib.h lines 452-483),
    taken only when `nextSplitIndex > hashIxMask`: double the chain-head
    array (heads below the occupied size are copied, the new second half
    is freshly constructed empty), promote the masks and reset
    `nextSplitIndex`.  The model takes the allocation-success path; on
    allocation failure the source skips this phase, which only leaves the
    narrower table in place. -/
def doubleTable {Rec : Type} (tbl : ResTable Rec) : ResTable Rec :=
  { tbl with
    buckets := fun j => if j < tableSize tbl then tbl.buckets j else [],
    hashIxMask := tbl.hashIxSplitMask,
    hashIxSplitMask := 2 * (tbl.hashIxSplitMask + 1) - 1,
    nextSplitIndex := 0 }

/-- Phase two of `resTable::splitBucket` (resourceLib.h lines 485-494):
    detach the chain at `nextSplitIndex`, increment `nextSplitIndex`, then
    rehash each detached record. -/
def splitStep {Rec ID : Type} (M : ResModel Rec ID) (tbl : ResTable Rec) : ResTable Rec :=
  rehashAll M
    { tbl with buckets := updBuckets tbl.buckets tbl.nextSplitIndex [],
               nextSplitIndex := tbl.nextSplitIndex + 1 }
    (tbl.buckets tbl.nextSplitIndex)

/-- `resTable::splitBucket`, resourceLib.h lines 446-495. -/
def splitBucket {Rec ID : Type} (M : ResModel Rec ID) (tbl : ResTable Rec) : ResTable Rec :=
  splitStep M (if tbl.hashIxMask < tbl.nextSplitIndex then doubleTable tbl else tbl)

/-- `resTable::add`, resourceLib.h lines 502-515: split first when
    `nInUse > tableSize()`, then hash, scan for a duplicate (returning -1),
    otherwise push the record onto the bucket and increment `nInUse`. -/
def rtAdd {Rec ID : Type} (M : ResModel Rec ID) (tbl : ResTable Rec) (res : Rec) :
    ResTable Rec × Int :=
  let tbl1 := if tableSize tbl < tbl.nInUse then splitBucket M tbl else tbl
  let b := rtHash M tbl1 (M.getId res)
  let list := tbl1.buckets b
  if (rtFind M list (M.getId res)).isSome then (tbl1, -1)
  else
    ({ tbl1 with buckets := updBuckets tbl1.buckets b (res :: list),
                 nInUse := tbl1.nInUse + 1 }, 0)

/-- `resTable::numEntriesInstalled`, resourceLib.h lines 434-438. -/
def numEntriesInstalled {Rec : Type} (tbl : ResTable Rec) : Nat :=
  tbl.nInUse

/-- `resTable::resTable`, resourceLib.h lines 268-284: fresh table with
    `nextSplitIndex = 0`, `hashIxMask = (1 << minW) - 1`,
    `hashIxSplitMask = (1 << (minW+1)) - 1`, `nInUse = 0` and
    `hashIxSplitMask + 1` freshly constructed (empty) chain heads. -/
def rtInit (Rec : Type) (minW : Nat) : ResTable Rec :=
  { buckets := fun _ => []
    nextSplitIndex := 0
    hashIxMask := (1 <<< minW) - 1
    hashIxSplitMask := (1 <<< (minW + 1)) - 1
    nInUse := 0 }

/-- `intId<unsigned, 4, 32>` as an identifier model over plain `Nat`
    records that are their own identifiers: equality is integer equality
    (resourceLib.h lines 700-705), the hash is
    `integerHash ( 4, 32, id )` (lines 776-780). -/
def intM : ResModel Nat Nat :=
  { getId := fun r => r
    idEq := fun a b => a == b
    idHash := fun n => integerHash 4 32 n }

/-- Fold a list of integer-identified records into a table with `add`. -/
def addAll (tbl : ResTable Nat) (l : List Nat) : ResTable Nat :=
  l.foldl (fun t r => (rtAdd intM t r).1) tbl

/-- Seventeen records with ids 0..16 in a table of initial size 16
    (`minIndexBitWidth = 4`), so the next `add` sees `nInUse > tableSize()`
    and triggers a split step. -/
def c4State : ResTable Nat :=
  addAll (rtInit Nat 4) (List.range 17)

/-- Sum of the chain lengths over the first `n` buckets. -/
def chainCount {Rec : Type} (f : Nat → List Rec) (n : Nat) : Nat :=
  ∑ i ∈ Finset.range n, (f i).length

/-- The state invariant of `resTable` (spec section 3): power-of-two mask
    pair, `nextSplitIndex` within the current round, empty chains beyond
    the occupied size, every record in the bucket its identifier currently
    hashes to, and `nInUse` equal to the total chain length. -/
structure RTInv {Rec ID : Type} (M : ResModel Rec ID) (tbl : ResTable Rec) : Prop where
  pow : ∃ k, tbl.hashIxMask = 2 ^ k - 1
  smask : tbl.hashIxSplitMask = 2 * (tbl.hashIxMask + 1) - 1
  sle : tbl.nextSplitIndex ≤ tbl.hashIxMask + 1
  beyond : ∀ j, tableSize tbl ≤ j → tbl.buckets j = []
  placed : ∀ j r, r ∈ tbl.buckets j → rtHash M tbl (M.getId r) = j
  count : tbl.nInUse = chainCount tbl.buckets (tableSize tbl)

/-- The 256-byte Pearson permutation `stringId::fastHashPermutedIndexSpace`
    (resourceLib.h lines 954-971). -/
def fastHashPermutedIndexSpace : List Nat := [
    39, 159, 180, 252, 71, 6, 13, 164, 232, 35, 226, 155, 98, 120, 154, 69,
    157, 24, 137, 29, 147, 78, 121, 85, 112, 8, 248, 130, 55, 117, 190, 160,
    176, 131, 228, 64, 211, 106, 38, 27, 140, 30, 88, 210, 227, 104, 84, 77,
    75, 107, 169, 138, 195, 184, 70, 90, 61, 166, 7, 244, 165, 108, 219, 51,
    9, 139, 209, 40, 31, 202, 58, 179, 116, 33, 207, 146, 76, 60, 242, 124,
    254, 197, 80, 167, 153, 145, 129, 233, 132, 48, 246, 86, 156, 177, 36, 187,
    45, 1, 96, 18, 19, 62, 185, 234, 99, 16, 218, 95, 128, 224, 123, 253,
    42, 109, 4, 247, 72, 5, 151, 136, 0, 152, 148, 127, 204, 133, 17, 14,
    182, 217, 54, 199, 119, 174, 82, 57, 215, 41, 114, 208, 206, 110, 239, 23,
    189, 15, 3, 22, 188, 79, 113, 172, 28, 2, 222, 21, 251, 225, 237, 105,
    102, 32, 56, 181, 126, 83, 230, 53, 158, 52, 59, 213, 118, 100, 67, 142,
    220, 170, 144, 115, 205, 26, 125, 168, 249, 66, 175, 97, 255, 92, 229, 91,
    214, 236, 178, 243, 46, 44, 201, 250, 135, 186, 150, 221, 163, 216, 162, 43,
    11, 101, 34, 37, 194, 25, 50, 12, 87, 198, 173, 240, 193, 171, 143, 231,
    111, 141, 191, 103, 74, 245, 223, 20, 161, 235, 122, 63, 89, 149, 73, 238,
    134, 68, 93, 183, 241, 81, 196, 49, 192, 65, 212, 94, 203, 10, 200, 47]

/-- Table lookup `fastHashPermutedIndexSpace [ x ]` (indices are always
    below 256 in the source, since accumulators and bytes are below 256). -/
def permAt (x : Nat) : Nat :=
  fastHashPermutedIndexSpace.getD x 0

/-- The four-lane Pearson loop of `stringId::hash` (resourceLib.h lines
    916-941): byte number `lane` (counted from 0) updates accumulator
    `lane % 4` by `h := P [ h ^ c ]`; the loop stops at the terminating
    NUL, so the input is the list of bytes before the NUL. -/
def pearsonFold : List Nat → Nat → Nat × Nat × Nat × Nat → Nat × Nat × Nat × Nat
  | [], _, hs => hs
  | c :: rest, lane, (h0, h1, h2, h3) =>
    let hs2 :=
      if lane % 4 = 0 then (permAt (h0 ^^^ c), h1, h2, h3)
      else if lane % 4 = 1 then (h0, permAt (h1 ^^^ c), h2, h3)
      else if lane % 4 = 2 then (h0, h1, permAt (h2 ^^^ c), h3)
      else (h0, h1, h2, permAt (h3 ^^^ c))
    pearsonFold rest (lane + 1) hs2

/-- `stringIdMinIndexWidth = CHAR_BIT`, resourceLib.h line 808. -/
def stringIdMinIndexWidth : Nat := 8

/-- `stringIdMaxIndexWidth = sizeof ( unsigned )`, resourceLib.h line 809:
    the source takes the byte size 4, not the bit size 32. -/
def stringIdMaxIndexWidth : Nat := 4

/-- `stringId::hash`, resourceLib.h lines 901-946: a null backing pointer
    (modelled as `none`) hashes to 0; otherwise the four-lane Pearson
    composite `(h3 << 24) | (h2 << 16) | (h1 << 8) | h0` is passed to
    `integerHash ( stringIdMinIndexWidth, stringIdMaxIndexWidth, h )`. -/
def stringIdHash : Option (List Nat) → Nat
  | none => 0
  | some bytes =>
    let hs := pearsonFold bytes 0 (0, 0, 0, 0)
    let composite := (hs.2.2.2 <<< 24) ||| (hs.2.2.1 <<< 16) ||| (hs.2.1 <<< 8) ||| hs.1
    integerHash stringIdMinIndexWidth stringIdMaxIndexWidth composite

/-- `stringId::operator ==`, resourceLib.h lines 789-798: `strcmp` equality
    when both backing pointers are non-null, false otherwise. -/
def strEq : Option (List Nat) → Option (List Nat) → Bool
  | some a, some b => a == b
  | _, _ => false

/-- `stringId`-keyed tables: records are their own identifiers (class T
    derives from class ID in the source). -/
def Mstr : ResModel (Option (List Nat)) (Option (List Nat)) :=
  { getId := fun r => r
    idEq := strEq
    idHash := stringIdHash }

/-- A client-visible table operation: `add` with a record, or `remove`
    with an identifier. -/
inductive TableOp (Rec ID : Type) where
  | addOp : Rec → TableOp Rec ID
  | removeOp : ID → TableOp Rec ID

/-- Run a sequence of operations (given oldest last) against a freshly
    constructed table. -/
def runOps {Rec ID : Type} (M : ResModel Rec ID) (minW : Nat) :
    List (TableOp Rec ID) → ResTable Rec
  | [] => rtInit Rec minW
  | op :: rest =>
    match op with
    | .addOp r => (rtAdd M (runOps M minW rest) r).1
    | .removeOp i => (rtRemove M (runOps M minW rest) i).1

/-- State of `chronIntIdResTable<ITEM>` (resourceLib.h lines 209-217): the
    underlying `resTable` keyed by `chronIntId` - records are a payload
    paired with their unsigned id - plus the allocation counter
    `allocId`. -/
structure ChronState (A : Type) where
  table : ResTable (A × Nat)
  allocId : Nat

/-- The `chronIntId` identifier model: `intId<unsigned, 8u, 32>` over
    payload-id pairs (resourceLib.h lines 203-207, 630-631). -/
def Mchron (A : Type) : ResModel (A × Nat) Nat :=
  { getId := fun r => r.2
    idEq := fun a b => a == b
    idHash := fun n => integerHash 8 32 n }

/-- The number of values of the C `unsigned` type (32 bits). -/
def uintCard : Nat := 2 ^ 32

/-- `chronIntIdResTable::chronIntIdResTable` (resourceLib.h lines 636-638):
    empty table, `allocId` initialized to 1. -/
def chronInit (A : Type) : ChronState A :=
  { table := rtInit (A × Nat) 8, allocId := 1 }

/-- `chronIntIdResTable::add` (resourceLib.h lines 654-663): repeatedly
    `item.setId ( allocId++ )` (with the unsigned counter wrapping modulo
    2^32) and retry `resTable::add` until it reports success.  The C loop
    has no bound; the model carries fuel, and the theorems are conditional
    on the loop terminating within it. -/
def chronAdd {A : Type} : Nat → ChronState A → A × Nat → ChronState A × Option Nat
  | 0, st, _ => (st, none)
  | fuel + 1, st, item =>
    let item2 := (item.1, st.allocId)
    let a2 := (st.allocId + 1) % uintCard
    let res := rtAdd (Mchron A) st.table item2
    if res.2 = 0 then ({ table := res.1, allocId := a2 }, some st.allocId)
    else chronAdd fuel { table := res.1, allocId := a2 } item


/-- `rehashAll` never changes `nInUse`. -/
theorem rehashAll_nInUse {Rec ID : Type} (M : ResModel Rec ID) (l : List Rec)
    (tbl : ResTable Rec) : (rehashAll M tbl l).nInUse = tbl.nInUse := by
  induction l generalizing tbl with
  | nil => rfl
  | cons p rest ih => exact ih _

/-- `splitBucket` never changes `nInUse` (it only moves records). -/
theorem splitBucket_nInUse {Rec ID : Type} (M : ResModel Rec ID) (tbl : ResTable Rec) :
    (splitBucket M tbl).nInUse = tbl.nInUse := by
  unfold splitBucket splitStep
  rw [rehashAll_nInUse]
  split <;> rfl

/-- A value reduced modulo `2^(k+1)` is its value modulo `2^k`, plus
    possibly the bit `2^k`. -/
theorem mod_pow_succ_cases (h k : Nat) :
    h % 2 ^ (k + 1) = h % 2 ^ k ∨ h % 2 ^ (k + 1) = h % 2 ^ k + 2 ^ k := by
  have hsplit : h % 2 ^ (k + 1) = h % 2 ^ k + 2 ^ k * (h / 2 ^ k % 2) := by
    rw [pow_succ]
    exact Nat.mod_mul
  rcases Nat.mod_two_eq_zero_or_one (h / 2 ^ k) with h0 | h0 <;> rw [h0] at hsplit <;> omega

/-- With a power-of-two mask pair, the bucket index is always below the
    occupied table size `(mask + 1) + nextSplitIndex`. -/
theorem hashVal_lt (h k s : Nat) :
    hashVal h (2 ^ k - 1) (2 ^ (k + 1) - 1) s < 2 ^ k + s := by
  have hm : h &&& (2 ^ k - 1) = h % 2 ^ k := Nat.and_pow_two_sub_one_eq_mod h k
  have hm2 : h &&& (2 ^ (k + 1) - 1) = h % 2 ^ (k + 1) :=
    Nat.and_pow_two_sub_one_eq_mod h (k + 1)
  have hcase := mod_pow_succ_cases h k
  have hb : h % 2 ^ k < 2 ^ k := Nat.mod_lt _ (Nat.two_pow_pos k)
  simp only [hashVal, hm, hm2]
  split <;> omega

/-- Advancing `nextSplitIndex` by one does not move any record that is not
    in the bucket about to be split. -/
theorem hashVal_stable (h k s : Nat)
    (hne : hashVal h (2 ^ k - 1) (2 ^ (k + 1) - 1) s ≠ s) :
    hashVal h (2 ^ k - 1) (2 ^ (k + 1) - 1) (s + 1) =
      hashVal h (2 ^ k - 1) (2 ^ (k + 1) - 1) s := by
  have hm : h &&& (2 ^ k - 1) = h % 2 ^ k := Nat.and_pow_two_sub_one_eq_mod h k
  simp only [hashVal, hm] at hne ⊢
  by_cases hc : s ≤ h % 2 ^ k
  · rw [if_pos hc] at hne
    rw [if_pos hc, if_pos (by omega)]
  · rw [if_neg hc, if_neg (by omega)]

/-- When a doubling round completes (`nextSplitIndex = mask + 1 = 2^k`),
    promoting the masks and resetting `nextSplitIndex` leaves every bucket
    index unchanged. -/
theorem hashVal_double (h k : Nat) :
    hashVal h (2 ^ k - 1) (2 ^ (k + 1) - 1) (2 ^ k) =
      hashVal h (2 ^ (k + 1) - 1) (2 ^ (k + 2) - 1) 0 := by
  have hm : h &&& (2 ^ k - 1) = h % 2 ^ k := Nat.and_pow_two_sub_one_eq_mod h k
  have hb : h % 2 ^ k < 2 ^ k := Nat.mod_lt _ (Nat.two_pow_pos k)
  simp only [hashVal, hm]
  rw [if_neg (by omega), if_pos (Nat.zero_le _)]

theorem chainCount_congr {Rec : Type} (f g : Nat → List Rec) (n : Nat)
    (h : ∀ i, i < n → f i = g i) : chainCount f n = chainCount g n := by
  unfold chainCount
  exact Finset.sum_congr rfl fun i hi => by rw [h i (Finset.mem_range.mp hi)]

theorem chainCount_succ {Rec : Type} (f : Nat → List Rec) (n : Nat) :
    chainCount f (n + 1) = chainCount f n + (f n).length := by
  unfold chainCount
  exact Finset.sum_range_succ _ n

theorem chainCount_upd {Rec : Type} (f : Nat → List Rec) (b : Nat) (l : List Rec)
    (n : Nat) (hb : b < n) :
    chainCount (updBuckets f b l) n + (f b).length = chainCount f n + l.length := by
  unfold chainCount
  have hmem : b ∈ Finset.range n := Finset.mem_range.mpr hb
  rw [← Finset.add_sum_erase _ (fun i => ((updBuckets f b l) i).length) hmem,
      ← Finset.add_sum_erase _ (fun i => (f i).length) hmem]
  have h1 : updBuckets f b l b = l := by simp [updBuckets]
  have h2 : ∑ i ∈ (Finset.range n).erase b, ((updBuckets f b l) i).length =
      ∑ i ∈ (Finset.range n).erase b, (f i).length :=
    Finset.sum_congr rfl fun i hi => by
      have hne : i ≠ b := Finset.ne_of_mem_erase hi
      simp [updBuckets, hne]
  rw [h1, h2]
  omega

theorem chainCount_lower {Rec : Type} (f : Nat → List Rec) (b n : Nat) (hb : b < n) :
    (f b).length ≤ chainCount f n := by
  unfold chainCount
  exact Finset.single_le_sum (f := fun i => (f i).length) (fun i _ => Nat.zero_le _)
    (Finset.mem_range.mpr hb)

/-- Under the mask invariants the bucket index is always inside the
    occupied region. -/
theorem rtHash_lt {Rec ID : Type} (M : ResModel Rec ID) (tbl : ResTable Rec)
    (hpow : ∃ k, tbl.hashIxMask = 2 ^ k - 1)
    (hsm : tbl.hashIxSplitMask = 2 * (tbl.hashIxMask + 1) - 1) (idIn : ID) :
    rtHash M tbl idIn < tableSize tbl := by
  obtain ⟨k, hk⟩ := hpow
  have hp : (0 : Nat) < 2 ^ k := Nat.two_pow_pos k
  have hsm2 : tbl.hashIxSplitMask = 2 ^ (k + 1) - 1 := by
    rw [hsm, hk, pow_succ]
    omega
  have hlt := hashVal_lt (M.idHash idIn) k tbl.nextSplitIndex
  unfold rtHash tableSize
  rw [hk, hsm2]
  omega

/-- C2: for every identifier and every table state, the bucket index
    computed by `resTable::hash` - the index `add`, `lookup` and `remove`
    use - equals `h & hashIxMask` when that value is at least
    `nextSplitIndex`, and `h & hashIxSplitMask` otherwise, where
    `h = id.hash()`; moreover `lookup` scans exactly the chain at that
    index and `remove` deletes from exactly the chain at that index. -/
theorem bucket_index_rule {Rec ID : Type} (M : ResModel Rec ID) (tbl : ResTable Rec)
    (idIn : ID) :
    rtHash M tbl idIn =
      (if tbl.nextSplitIndex ≤ M.idHash idIn &&& tbl.hashIxMask
       then M.idHash idIn &&& tbl.hashIxMask
       else M.idHash idIn &&& tbl.hashIxSplitMask) ∧
    rtLookup M tbl idIn = rtFind M (tbl.buckets (rtHash M tbl idIn)) idIn ∧
    (rtRemove M tbl idIn).2 =
      (rtFindDelete M (tbl.buckets (rtHash M tbl idIn)) idIn).1 := by
  refine ⟨rfl, rfl, ?_⟩
  unfold rtRemove
  cases h : (rtFindDelete M (tbl.buckets (rtHash M tbl idIn)) idIn).1 <;>
    simp [h]

/-- C5: the code passes the Pearson composite to the integer mixer with
    `MAX_ID_WIDTH = stringIdMaxIndexWidth = sizeof(unsigned) = 4` - a byte
    count where the claim (and the adjacent `stringIdMinIndexWidth =
    CHAR_BIT = 8`) expects the bit count 32.  Evaluated at the two-byte
    string "ab" (bytes 97, 98; Pearson composite `(96 << 8) | 1 = 24577`):
    the code produces `24577 ^ (24577 >> 2) = 30721`, while the claimed
    `integerHash(8, 32, 24577)` is 24673.  A null pointer still hashes
    to 0. -/
theorem stringIdHash_byte_width_bug :
    stringIdMinIndexWidth = 8 ∧
    stringIdMaxIndexWidth = 4 ∧
    stringIdHash none = 0 ∧
    stringIdHash (some [97, 98]) = integerHash 8 4 ((96 <<< 8) ||| 1) ∧
    integerHash 8 4 ((96 <<< 8) ||| 1) = 24577 ^^^ (24577 >>> 2) ∧
    integerHash 8 4 ((96 <<< 8) ||| 1) = 30721 ∧
    integerHash 8 32 ((96 <<< 8) ||| 1) = 24673 ∧
    stringIdHash (some [97, 98]) ≠ integerHash 8 32 ((96 <<< 8) ||| 1) := by
  decide

set_option maxRecDepth 8000 in
/-- C4 counterexample: on a table holding ids 0..16 (so `nInUse = 17`
    exceeds `tableSize() = 16`), adding the duplicate id 0 returns the
    Duplicate status -1 yet changes the table state: the split step ran
    before the duplicate scan, advancing `nextSplitIndex` from 0 to 1. -/
theorem add_duplicate_changes_state :
    (rtAdd intM c4State 0).2 = -1 ∧
    (rtAdd intM c4State 0).1.nextSplitIndex ≠ c4State.nextSplitIndex := by
  constructor
  · decide
  · decide

/-- C4 amended: `add` performs the split step (taken exactly when
    `nInUse > tableSize()`) before computing the bucket and scanning for a
    duplicate; an `add` that returns Duplicate leaves the table exactly as
    the split step left it - in particular `nInUse` (and, when no split was
    triggered, the entire state) is unchanged. -/
theorem add_duplicate_leaves_split_state {Rec ID : Type} (M : ResModel Rec ID)
    (tbl : ResTable Rec) (r : Rec) (h : (rtAdd M tbl r).2 = -1) :
    (rtAdd M tbl r).1 = (if tableSize tbl < tbl.nInUse then splitBucket M tbl else tbl) ∧
    (rtAdd M tbl r).1.nInUse = tbl.nInUse := by
  cases hf : rtFind M
      ((if tableSize tbl < tbl.nInUse then splitBucket M tbl else tbl).buckets
        (rtHash M (if tableSize tbl < tbl.nInUse then splitBucket M tbl else tbl)
          (M.getId r)))
      (M.getId r) with
  | none =>
    have he : (rtAdd M tbl r).2 = 0 := by
      simp [rtAdd, hf]
    rw [he] at h
    exact absurd h (by decide)
  | some p =>
    have he : rtAdd M tbl r =
        (if tableSize tbl < tbl.nInUse then splitBucket M tbl else tbl, -1) := by
      simp [rtAdd, hf]
    rw [he]
    refine ⟨rfl, ?_⟩
    split <;> simp [splitBucket_nInUse]

set_option maxRecDepth 8000 in
/-- C4 witness: the amended statement instantiated at the concrete
    seventeen-record table and the duplicate id 0. -/
theorem add_duplicate_leaves_split_state_witness :
    (rtAdd intM c4State 0).1 =
      (if tableSize c4State < c4State.nInUse then splitBucket intM c4State else c4State) ∧
    (rtAdd intM c4State 0).1.nInUse = c4State.nInUse :=
  add_duplicate_leaves_split_state intM c4State 0 (by decide)

/-- C6 counterexample: with `MIN_INDEX_WIDTH = MAX_ID_WIDTH = 8` the mixer
    is not the identity: the do-while body still executes once, and input
    16 maps to 17. -/
theorem integerHash_degenerate_not_identity :
    8 ≥ 8 ∧ integerHash 8 8 16 ≠ 16 := by
  decide

/-- C6 amended: when `MIN_INDEX_WIDTH >= MAX_ID_WIDTH` the do-while body of
    the mixer executes exactly once (not zero times), returning
    `v XOR (v >> (MAX_ID_WIDTH >> 1))`. -/
theorem integerHash_degenerate (MIN MAX v : Nat) (h : MAX ≤ MIN) :
    integerHash MIN MAX v = v ^^^ (v >>> (MAX >>> 1)) := by
  have hw : MAX >>> 1 ≤ MIN := by
    refine le_trans ?_ h
    rw [Nat.shiftRight_eq_div_pow]
    exact Nat.div_le_self _ _
  simp only [integerHash, ihGo]
  rw [if_neg (Nat.not_lt.mpr hw)]

/-- C6 witness: the amended statement evaluated at
    `MIN = MAX = 8`, `v = 16`. -/
theorem integerHash_degenerate_witness :
    8 ≤ 8 ∧ integerHash 8 8 16 = 16 ^^^ (16 >>> (8 >>> 1)) :=
  ⟨le_refl 8, integerHash_degenerate 8 8 16 (le_refl 8)⟩

/-- C7 counterexample: for `minIndexBitWidth = 4` the freshly constructed
    table has `(hashIxMask + 1) + nextSplitIndex = 16`, not
    `1 << (4 + 1) = 32`. -/
theorem rtInit_tableSize_not_doubled :
    tableSize (rtInit Nat 4) ≠ 1 <<< (4 + 1) := by
  decide

/-- If the mask, split-mask and split-index invariants hold, every record
    of the rehash list lands in range, and the invariant is restored once
    the whole detached chain has been redistributed. -/
theorem rehashAll_inv {Rec ID : Type} (M : ResModel Rec ID) (l : List Rec) :
    ∀ tbl : ResTable Rec,
      (∃ k, tbl.hashIxMask = 2 ^ k - 1) →
      tbl.hashIxSplitMask = 2 * (tbl.hashIxMask + 1) - 1 →
      tbl.nextSplitIndex ≤ tbl.hashIxMask + 1 →
      (∀ j, tableSize tbl ≤ j → tbl.buckets j = []) →
      (∀ j r, r ∈ tbl.buckets j → rtHash M tbl (M.getId r) = j) →
      tbl.nInUse = chainCount tbl.buckets (tableSize tbl) + l.length →
      RTInv M (rehashAll M tbl l) := by
  induction l with
  | nil =>
    intro tbl hpow hsm hsle hbey hpl hcnt
    exact ⟨hpow, hsm, hsle, hbey, hpl, by simpa using hcnt⟩
  | cons p rest ih =>
    intro tbl hpow hsm hsle hbey hpl hcnt
    have hilt : rtHash M tbl (M.getId p) < tableSize tbl := rtHash_lt M tbl hpow hsm _
    have hbey2 : ∀ j, tableSize tbl ≤ j →
        updBuckets tbl.buckets (rtHash M tbl (M.getId p))
          (p :: tbl.buckets (rtHash M tbl (M.getId p))) j = [] := by
      intro j hj
      have hne : j ≠ rtHash M tbl (M.getId p) := by omega
      simp only [updBuckets, if_neg hne]
      exact hbey j hj
    have hpl2 : ∀ j r, r ∈ updBuckets tbl.buckets (rtHash M tbl (M.getId p))
        (p :: tbl.buckets (rtHash M tbl (M.getId p))) j →
        rtHash M tbl (M.getId r) = j := by
      intro j r hr
      by_cases hj : j = rtHash M tbl (M.getId p)
      · subst hj
        simp only [updBuckets, if_pos rfl] at hr
        rcases List.mem_cons.mp hr with hrp | hrb
        · rw [hrp]
        · exact hpl _ r hrb
      · simp only [updBuckets, if_neg hj] at hr
        exact hpl j r hr
    have hcnt2 : tbl.nInUse = chainCount (updBuckets tbl.buckets (rtHash M tbl (M.getId p))
        (p :: tbl.buckets (rtHash M tbl (M.getId p)))) (tableSize tbl) + rest.length := by
      have hup := chainCount_upd tbl.buckets (rtHash M tbl (M.getId p))
        (p :: tbl.buckets (rtHash M tbl (M.getId p))) (tableSize tbl) hilt
      have hl1 : (p :: tbl.buckets (rtHash M tbl (M.getId p))).length =
          (tbl.buckets (rtHash M tbl (M.getId p))).length + 1 := rfl
      have hl2 : (p :: rest).length = rest.length + 1 := rfl
      omega
    simp only [rehashAll]
    exact ih _ hpow hsm hsle hbey2 hpl2 hcnt2

/-- The incremental rehash of one bucket (phase two of `splitBucket`)
    preserves the table invariant whenever the split round is not yet
    complete. -/
theorem splitStep_inv {Rec ID : Type} (M : ResModel Rec ID) (tbl : ResTable Rec)
    (hpow : ∃ k, tbl.hashIxMask = 2 ^ k - 1)
    (hsm : tbl.hashIxSplitMask = 2 * (tbl.hashIxMask + 1) - 1)
    (hslt : tbl.nextSplitIndex ≤ tbl.hashIxMask)
    (hbey : ∀ j, tableSize tbl ≤ j → tbl.buckets j = [])
    (hpl : ∀ j r, r ∈ tbl.buckets j → rtHash M tbl (M.getId r) = j)
    (hcnt : tbl.nInUse = chainCount tbl.buckets (tableSize tbl)) :
    RTInv M (splitStep M tbl) := by
  obtain ⟨k, hk⟩ := hpow
  have hp : (0 : Nat) < 2 ^ k := Nat.two_pow_pos k
  have hsm2 : tbl.hashIxSplitMask = 2 ^ (k + 1) - 1 := by
    rw [hsm, hk, pow_succ]
    omega
  have hslt2 : tbl.nextSplitIndex < tableSize tbl := by
    unfold tableSize
    omega
  apply rehashAll_inv
  · exact ⟨k, hk⟩
  · exact hsm
  · show tbl.nextSplitIndex + 1 ≤ tbl.hashIxMask + 1
    omega
  · intro j hj
    have hj2 : tableSize tbl + 1 ≤ j := by
      have hj3 : (tbl.hashIxMask + 1) + (tbl.nextSplitIndex + 1) ≤ j := hj
      unfold tableSize
      omega
    have hne : j ≠ tbl.nextSplitIndex := by omega
    show updBuckets tbl.buckets tbl.nextSplitIndex [] j = []
    simp only [updBuckets, if_neg hne]
    exact hbey j (by omega)
  · intro j r hr
    by_cases hj : j = tbl.nextSplitIndex
    · subst hj
      simp [updBuckets] at hr
    · have hr2 : r ∈ tbl.buckets j := by
        have hr3 : r ∈ updBuckets tbl.buckets tbl.nextSplitIndex [] j := hr
        simpa only [updBuckets, if_neg hj] using hr3
      have holdv : hashVal (M.idHash (M.getId r)) (2 ^ k - 1) (2 ^ (k + 1) - 1)
          tbl.nextSplitIndex = j := by
        have h0 := hpl j r hr2
        unfold rtHash at h0
        rw [hk, hsm2] at h0
        exact h0
      have hnev : hashVal (M.idHash (M.getId r)) (2 ^ k - 1) (2 ^ (k + 1) - 1)
          tbl.nextSplitIndex ≠ tbl.nextSplitIndex := by
        rw [holdv]
        exact hj
      show hashVal (M.idHash (M.getId r)) tbl.hashIxMask tbl.hashIxSplitMask
        (tbl.nextSplitIndex + 1) = j
      rw [hk, hsm2, hashVal_stable _ _ _ hnev, holdv]
  · show tbl.nInUse = chainCount (updBuckets tbl.buckets tbl.nextSplitIndex [])
      ((tbl.hashIxMask + 1) + (tbl.nextSplitIndex + 1)) +
      (tbl.buckets tbl.nextSplitIndex).length
    have hts : (tbl.hashIxMask + 1) + (tbl.nextSplitIndex + 1) = tableSize tbl + 1 := by
      unfold tableSize
      omega
    have h1 := chainCount_upd tbl.buckets tbl.nextSplitIndex [] (tableSize tbl) hslt2
    have h2 := chainCount_succ (updBuckets tbl.buckets tbl.nextSplitIndex [])
      (tableSize tbl)
    have h3 : (updBuckets tbl.buckets tbl.nextSplitIndex []) (tableSize tbl) = [] := by
      have hne : tableSize tbl ≠ tbl.nextSplitIndex := by omega
      simp only [updBuckets, if_neg hne]
      exact hbey _ (le_refl _)
    rw [hts, h2]
    have hf0 : (updBuckets tbl.buckets tbl.nextSplitIndex [] (tableSize tbl)).length = 0 := by
      rw [h3]
      rfl
    simp only [List.length_nil] at h1
    omega

/-- `splitBucket` preserves the table invariant. -/
theorem splitBucket_inv {Rec ID : Type} (M : ResModel Rec ID) (tbl : ResTable Rec)
    (h : RTInv M tbl) : RTInv M (splitBucket M tbl) := by
  obtain ⟨⟨k, hk⟩, hsm, hsle, hbey, hpl, hcnt⟩ := h
  have hp : (0 : Nat) < 2 ^ k := Nat.two_pow_pos k
  have hsm2 : tbl.hashIxSplitMask = 2 ^ (k + 1) - 1 := by
    rw [hsm, hk, pow_succ]
    omega
  unfold splitBucket
  by_cases hd : tbl.hashIxMask < tbl.nextSplitIndex
  · rw [if_pos hd]
    have hs2k : tbl.nextSplitIndex = 2 ^ k := by omega
    have hts : tableSize (doubleTable tbl) = tableSize tbl := by
      show tbl.hashIxSplitMask + 1 + 0 = (tbl.hashIxMask + 1) + tbl.nextSplitIndex
      rw [hsm2, hk, hs2k, pow_succ]
      omega
    apply splitStep_inv
    · exact ⟨k + 1, hsm2⟩
    · rfl
    · show (0 : Nat) ≤ tbl.hashIxSplitMask
      exact Nat.zero_le _
    · intro j hj
      show (if j < tableSize tbl then tbl.buckets j else []) = []
      rw [hts] at hj
      rw [if_neg (by omega)]
    · intro j r hr
      have hr2 : r ∈ tbl.buckets j ∧ j < tableSize tbl := by
        have hr3 : r ∈ (if j < tableSize tbl then tbl.buckets j else []) := hr
        by_cases hjlt : j < tableSize tbl
        · rw [if_pos hjlt] at hr3
          exact ⟨hr3, hjlt⟩
        · rw [if_neg hjlt] at hr3
          exact absurd hr3 (List.not_mem_nil r)
      have holdv : hashVal (M.idHash (M.getId r)) (2 ^ k - 1) (2 ^ (k + 1) - 1)
          tbl.nextSplitIndex = j := by
        have h0 := hpl j r hr2.1
        unfold rtHash at h0
        rw [hk, hsm2] at h0
        exact h0
      rw [hs2k] at holdv
      show hashVal (M.idHash (M.getId r)) tbl.hashIxSplitMask
        (2 * (tbl.hashIxSplitMask + 1) - 1) 0 = j
      have hsm4 : 2 * (2 ^ (k + 1) - 1 + 1) - 1 = 2 ^ (k + 2) - 1 := by
        have hp1 : (0 : Nat) < 2 ^ (k + 1) := Nat.two_pow_pos _
        rw [pow_succ 2 (k + 1)]
        omega
      rw [hsm2, hsm4, ← hashVal_double]
      exact holdv
    · show tbl.nInUse = chainCount (doubleTable tbl).buckets (tableSize (doubleTable tbl))
      rw [hts, hcnt]
      apply chainCount_congr
      intro i hi
      show tbl.buckets i = (if i < tableSize tbl then tbl.buckets i else [])
      rw [if_pos hi]
  · rw [if_neg hd]
    exact splitStep_inv M tbl ⟨k, hk⟩ hsm (by omega) hbey hpl hcnt

/-- `add` preserves the table invariant. -/
theorem rtAdd_inv {Rec ID : Type} (M : ResModel Rec ID) (tbl : ResTable Rec) (r : Rec)
    (h : RTInv M tbl) : RTInv M (rtAdd M tbl r).1 := by
  have h1 : RTInv M (if tableSize tbl < tbl.nInUse then splitBucket M tbl else tbl) := by
    split
    · exact splitBucket_inv M tbl h
    · exact h
  simp only [rtAdd]
  revert h1
  generalize (if tableSize tbl < tbl.nInUse then splitBucket M tbl else tbl) = t1
  intro h1
  obtain ⟨hpow, hsm, hsle, hbey, hpl, hcnt⟩ := h1
  by_cases hf : (rtFind M (t1.buckets (rtHash M t1 (M.getId r))) (M.getId r)).isSome = true
  · rw [if_pos hf]
    exact ⟨hpow, hsm, hsle, hbey, hpl, hcnt⟩
  · rw [if_neg hf]
    have hb : rtHash M t1 (M.getId r) < tableSize t1 := rtHash_lt M t1 hpow hsm _
    refine ⟨hpow, hsm, hsle, ?_, ?_, ?_⟩
    · intro j hj
      have hj1 : tableSize t1 ≤ j := hj
      have hne : j ≠ rtHash M t1 (M.getId r) := by omega
      show updBuckets t1.buckets (rtHash M t1 (M.getId r))
        (r :: t1.buckets (rtHash M t1 (M.getId r))) j = []
      simp only [updBuckets, if_neg hne]
      exact hbey j hj1
    · intro j r2 hr2
      show rtHash M t1 (M.getId r2) = j
      by_cases hj : j = rtHash M t1 (M.getId r)
      · subst hj
        have hr3 : r2 ∈ r :: t1.buckets (rtHash M t1 (M.getId r)) := by
          have hr4 : r2 ∈ updBuckets t1.buckets (rtHash M t1 (M.getId r))
              (r :: t1.buckets (rtHash M t1 (M.getId r))) (rtHash M t1 (M.getId r)) := hr2
          simpa only [updBuckets, if_pos rfl] using hr4
        rcases List.mem_cons.mp hr3 with hrp | hrb
        · rw [hrp]
        · exact hpl _ r2 hrb
      · have hr3 : r2 ∈ t1.buckets j := by
          have hr4 : r2 ∈ updBuckets t1.buckets (rtHash M t1 (M.getId r))
              (r :: t1.buckets (rtHash M t1 (M.getId r))) j := hr2
          simpa only [updBuckets, if_neg hj] using hr4
        exact hpl j r2 hr3
    · show t1.nInUse + 1 = chainCount (updBuckets t1.buckets (rtHash M t1 (M.getId r))
        (r :: t1.buckets (rtHash M t1 (M.getId r)))) (tableSize t1)
      have hup := chainCount_upd t1.buckets (rtHash M t1 (M.getId r))
        (r :: t1.buckets (rtHash M t1 (M.getId r))) (tableSize t1) hb
      have hl1 : (r :: t1.buckets (rtHash M t1 (M.getId r))).length =
          (t1.buckets (rtHash M t1 (M.getId r))).length + 1 := rfl
      omega

/-- Every record of the chain left behind by `findDelete` was a member of
    the original chain. -/
theorem rtFindDelete_mem_sub {Rec ID : Type} (M : ResModel Rec ID) (idIn : ID) :
    ∀ (l : List Rec) (r2 : Rec), r2 ∈ (rtFindDelete M l idIn).2 → r2 ∈ l := by
  intro l
  induction l with
  | nil => simp [rtFindDelete]
  | cons p rest ih =>
    intro r2 hr2
    by_cases hc : M.idEq (M.getId p) idIn = true
    · simp only [rtFindDelete, if_pos hc] at hr2
      exact List.mem_cons_of_mem _ hr2
    · simp only [rtFindDelete, if_neg hc] at hr2
      rcases List.mem_cons.mp hr2 with h1 | h1
      · rw [h1]
        exact List.mem_cons_self _ _
      · exact List.mem_cons_of_mem _ (ih r2 h1)

/-- When `findDelete` finds a record, the remaining chain is one shorter. -/
theorem rtFindDelete_some_len {Rec ID : Type} (M : ResModel Rec ID) (idIn : ID) :
    ∀ l : List Rec, (rtFindDelete M l idIn).1.isSome = true →
      l.length = (rtFindDelete M l idIn).2.length + 1 := by
  intro l
  induction l with
  | nil => simp [rtFindDelete]
  | cons p rest ih =>
    intro hs
    by_cases hc : M.idEq (M.getId p) idIn = true
    · simp [rtFindDelete, hc]
    · simp only [rtFindDelete, if_neg hc] at hs ⊢
      simp only [Option.isSome] at hs
      have hrec := ih hs
      simp only [List.length_cons, hrec]

/-- `remove` preserves the table invariant. -/
theorem rtRemove_inv {Rec ID : Type} (M : ResModel Rec ID) (tbl : ResTable Rec)
    (idIn : ID) (h : RTInv M tbl) : RTInv M (rtRemove M tbl idIn).1 := by
  obtain ⟨hpow, hsm, hsle, hbey, hpl, hcnt⟩ := h
  by_cases hf : (rtFindDelete M (tbl.buckets (rtHash M tbl idIn)) idIn).1.isSome = true
  · have hb : rtHash M tbl idIn < tableSize tbl := rtHash_lt M tbl hpow hsm idIn
    simp only [rtRemove, if_pos hf]
    refine ⟨hpow, hsm, hsle, ?_, ?_, ?_⟩
    · intro j hj
      have hj1 : tableSize tbl ≤ j := hj
      have hne : j ≠ rtHash M tbl idIn := by omega
      show updBuckets tbl.buckets (rtHash M tbl idIn)
        (rtFindDelete M (tbl.buckets (rtHash M tbl idIn)) idIn).2 j = []
      simp only [updBuckets, if_neg hne]
      exact hbey j hj1
    · intro j r2 hr2
      show rtHash M tbl (M.getId r2) = j
      by_cases hj : j = rtHash M tbl idIn
      · subst hj
        have hr3 : r2 ∈ (rtFindDelete M (tbl.buckets (rtHash M tbl idIn)) idIn).2 := by
          have hr4 : r2 ∈ updBuckets tbl.buckets (rtHash M tbl idIn)
              (rtFindDelete M (tbl.buckets (rtHash M tbl idIn)) idIn).2
              (rtHash M tbl idIn) := hr2
          simpa only [updBuckets, if_pos rfl] using hr4
        exact hpl _ r2 (rtFindDelete_mem_sub M idIn _ r2 hr3)
      · have hr3 : r2 ∈ tbl.buckets j := by
          have hr4 : r2 ∈ updBuckets tbl.buckets (rtHash M tbl idIn)
              (rtFindDelete M (tbl.buckets (rtHash M tbl idIn)) idIn).2 j := hr2
          simpa only [updBuckets, if_neg hj] using hr4
        exact hpl j r2 hr3
    · show tbl.nInUse - 1 = chainCount (updBuckets tbl.buckets (rtHash M tbl idIn)
        (rtFindDelete M (tbl.buckets (rtHash M tbl idIn)) idIn).2) (tableSize tbl)
      have hup := chainCount_upd tbl.buckets (rtHash M tbl idIn)
        (rtFindDelete M (tbl.buckets (rtHash M tbl idIn)) idIn).2 (tableSize tbl) hb
      have hlen := rtFindDelete_some_len M idIn (tbl.buckets (rtHash M tbl idIn)) hf
      have hge := chainCount_lower tbl.buckets (rtHash M tbl idIn) (tableSize tbl) hb
      omega
  · simp only [rtRemove, if_neg hf]
    exact ⟨hpow, hsm, hsle, hbey, hpl, hcnt⟩

/-- A freshly constructed table satisfies the invariant. -/
theorem rtInit_inv {Rec ID : Type} (M : ResModel Rec ID) (minW : Nat) :
    RTInv M (rtInit Rec minW) := by
  have h1 : (1 : Nat) <<< minW = 2 ^ minW := Nat.one_shiftLeft _
  have h2 : (1 : Nat) <<< (minW + 1) = 2 ^ (minW + 1) := Nat.one_shiftLeft _
  have hp : (0 : Nat) < 2 ^ minW := Nat.two_pow_pos minW
  refine ⟨⟨minW, ?_⟩, ?_, ?_, ?_, ?_, ?_⟩
  · show (1 <<< minW) - 1 = 2 ^ minW - 1
    rw [h1]
  · show (1 <<< (minW + 1)) - 1 = 2 * (((1 <<< minW) - 1) + 1) - 1
    rw [h1, h2, pow_succ]
    omega
  · exact Nat.zero_le _
  · intro j hj
    rfl
  · intro j r hr
    exact absurd hr (List.not_mem_nil r)
  · show 0 = chainCount (fun _ => []) (tableSize (rtInit Rec minW))
    unfold chainCount
    simp

/-- `find` misses when no chain member's identifier compares equal. -/
theorem rtFind_eq_none {Rec ID : Type} (M : ResModel Rec ID) (l : List Rec) (idIn : ID)
    (h : ∀ r2 ∈ l, M.idEq (M.getId r2) idIn = false) : rtFind M l idIn = none := by
  unfold rtFind
  rw [List.find?_eq_none]
  intro x hx
  rw [h x hx]
  simp

/-- `lookup` returns the head of the hashed chain when it matches. -/
theorem rtLookup_head {Rec ID : Type} (M : ResModel Rec ID) (t : ResTable Rec) (idv : ID)
    (r : Rec) (l : List Rec) (hb : t.buckets (rtHash M t idv) = r :: l)
    (hr : M.idEq (M.getId r) idv = true) : rtLookup M t idv = some r := by
  unfold rtLookup
  rw [hb]
  unfold rtFind
  exact List.find?_cons_of_pos _ hr

/-- `lookup` misses when nothing in the hashed chain matches. -/
theorem rtLookup_none {Rec ID : Type} (M : ResModel Rec ID) (t : ResTable Rec) (idv : ID)
    (h : ∀ r2 ∈ t.buckets (rtHash M t idv), M.idEq (M.getId r2) idv = false) :
    rtLookup M t idv = none :=
  rtFind_eq_none M _ idv h

/-- `remove` unlinks and returns the head of the hashed chain when it
    matches. -/
theorem rtRemove_head {Rec ID : Type} (M : ResModel Rec ID) (t : ResTable Rec) (idv : ID)
    (r : Rec) (l : List Rec) (hb : t.buckets (rtHash M t idv) = r :: l)
    (hr : M.idEq (M.getId r) idv = true) :
    rtRemove M t idv =
      ({ t with buckets := updBuckets t.buckets (rtHash M t idv) l,
                nInUse := t.nInUse - 1 }, some r) := by
  have hfd : rtFindDelete M (t.buckets (rtHash M t idv)) idv = (some r, l) := by
    rw [hb]
    simp only [rtFindDelete]
    rw [if_pos hr]
  simp [rtRemove, hfd]

/-- Every record in a bucket after the rehash loop either came from the
    rehash list or was already in some bucket. -/
theorem rehashAll_mem {Rec ID : Type} (M : ResModel Rec ID) (l : List Rec) :
    ∀ (tbl : ResTable Rec) (j : Nat) (r2 : Rec),
      r2 ∈ (rehashAll M tbl l).buckets j → r2 ∈ l ∨ ∃ j2, r2 ∈ tbl.buckets j2 := by
  induction l with
  | nil =>
    intro tbl j r2 hr
    exact Or.inr ⟨j, hr⟩
  | cons p rest ih =>
    intro tbl j r2 hr
    simp only [rehashAll] at hr
    rcases ih _ j r2 hr with hmem | ⟨j2, hj2⟩
    · exact Or.inl (List.mem_cons_of_mem _ hmem)
    · by_cases hj : j2 = rtHash M tbl (M.getId p)
      · subst hj
        have hj3 : r2 ∈ p :: tbl.buckets (rtHash M tbl (M.getId p)) := by
          simpa only [updBuckets, if_pos rfl] using hj2
        rcases List.mem_cons.mp hj3 with h1 | h1
        · rw [h1]
          exact Or.inl (List.mem_cons_self _ _)
        · exact Or.inr ⟨_, h1⟩
      · exact Or.inr ⟨j2, by simpa only [updBuckets, if_neg hj] using hj2⟩

/-- `splitBucket` only moves records between buckets: every record after a
    split was a member of some bucket before it. -/
theorem splitBucket_mem {Rec ID : Type} (M : ResModel Rec ID) (tbl : ResTable Rec)
    (j : Nat) (r2 : Rec) (h : r2 ∈ (splitBucket M tbl).buckets j) :
    ∃ j2, r2 ∈ tbl.buckets j2 := by
  have t1mem : ∀ j3, r2 ∈ (if tbl.hashIxMask < tbl.nextSplitIndex
      then doubleTable tbl else tbl).buckets j3 → ∃ j2, r2 ∈ tbl.buckets j2 := by
    intro j3 hm
    by_cases hd : tbl.hashIxMask < tbl.nextSplitIndex
    · rw [if_pos hd] at hm
      have hm2 : r2 ∈ (if j3 < tableSize tbl then tbl.buckets j3 else []) := hm
      by_cases hlt : j3 < tableSize tbl
      · rw [if_pos hlt] at hm2
        exact ⟨j3, hm2⟩
      · rw [if_neg hlt] at hm2
        exact absurd hm2 (List.not_mem_nil r2)
    · rw [if_neg hd] at hm
      exact ⟨j3, hm⟩
  unfold splitBucket splitStep at h
  revert t1mem h
  generalize (if tbl.hashIxMask < tbl.nextSplitIndex then doubleTable tbl else tbl) = t1
  intro h t1mem
  rcases rehashAll_mem M _ _ j r2 h with hmem | ⟨j2, hj2⟩
  · exact t1mem _ hmem
  · by_cases hj : j2 = t1.nextSplitIndex
    · subst hj
      have hj3 : r2 ∈ ([] : List Rec) := by
        simpa only [updBuckets, if_pos rfl] using hj2
      exact absurd hj3 (List.not_mem_nil r2)
    · exact t1mem j2 (by simpa only [updBuckets, if_neg hj] using hj2)

/-- C1 round trip: from any table state, for an identifier `idv` that
    compares equal to itself and unequal to every live record's identifier,
    and a fresh record `r` whose identifier is `idv`: `add r` succeeds,
    `lookup idv` then returns `r` itself; `remove idv` returns `r`, after
    which `lookup idv` returns null. -/
theorem round_trip {Rec ID : Type} (M : ResModel Rec ID) (tbl : ResTable Rec) (idv : ID)
    (r : Rec) (hrefl : M.idEq idv idv = true)
    (hfresh : ∀ j r2, r2 ∈ tbl.buckets j → M.idEq (M.getId r2) idv = false)
    (hid : M.getId r = idv) :
    (rtAdd M tbl r).2 = 0 ∧
    rtLookup M (rtAdd M tbl r).1 idv = some r ∧
    (rtRemove M (rtAdd M tbl r).1 idv).2 = some r ∧
    rtLookup M (rtRemove M (rtAdd M tbl r).1 idv).1 idv = none := by
  have hfresh1 : ∀ j r2, r2 ∈ (if tableSize tbl < tbl.nInUse then splitBucket M tbl
      else tbl).buckets j → M.idEq (M.getId r2) idv = false := by
    split
    · intro j r2 hr2
      obtain ⟨j2, hj2⟩ := splitBucket_mem M tbl j r2 hr2
      exact hfresh j2 r2 hj2
    · exact hfresh
  simp only [rtAdd]
  revert hfresh1
  generalize (if tableSize tbl < tbl.nInUse then splitBucket M tbl else tbl) = t1
  intro hfresh1
  rw [hid]
  have hfind : rtFind M (t1.buckets (rtHash M t1 idv)) idv = none :=
    rtFind_eq_none M _ idv fun r2 hr2 => hfresh1 _ r2 hr2
  rw [if_neg (by rw [hfind]; simp)]
  have hr : M.idEq (M.getId r) idv = true := by
    rw [hid]
    exact hrefl
  have hb2 : ({ t1 with
      buckets := updBuckets t1.buckets (rtHash M t1 idv)
        (r :: t1.buckets (rtHash M t1 idv)),
      nInUse := t1.nInUse + 1 } : ResTable Rec).buckets
        (rtHash M { t1 with
          buckets := updBuckets t1.buckets (rtHash M t1 idv)
            (r :: t1.buckets (rtHash M t1 idv)),
          nInUse := t1.nInUse + 1 } idv) = r :: t1.buckets (rtHash M t1 idv) := by
    show updBuckets t1.buckets (rtHash M t1 idv) (r :: t1.buckets (rtHash M t1 idv))
      (rtHash M t1 idv) = r :: t1.buckets (rtHash M t1 idv)
    simp [updBuckets]
  refine ⟨rfl, ?_, ?_, ?_⟩
  · exact rtLookup_head M _ idv r _ hb2 hr
  · rw [rtRemove_head M _ idv r _ hb2 hr]
  · rw [rtRemove_head M _ idv r _ hb2 hr]
    apply rtLookup_none
    intro r2 hr2
    have hr3 : r2 ∈ updBuckets
        ({ t1 with
          buckets := updBuckets t1.buckets (rtHash M t1 idv)
            (r :: t1.buckets (rtHash M t1 idv)),
          nInUse := t1.nInUse + 1 } : ResTable Rec).buckets
        (rtHash M t1 idv) (t1.buckets (rtHash M t1 idv)) (rtHash M t1 idv) := hr2
    have hr4 : r2 ∈ t1.buckets (rtHash M t1 idv) := by
      simpa only [updBuckets, if_pos rfl] using hr3
    exact hfresh1 _ r2 hr4

/-- C1 witness: the round trip evaluated on a fresh `intId`-keyed table
    with identifier 5. -/
theorem round_trip_witness :
    (rtAdd intM (rtInit Nat 4) 5).2 = 0 ∧
    rtLookup intM (rtAdd intM (rtInit Nat 4) 5).1 5 = some 5 ∧
    (rtRemove intM (rtAdd intM (rtInit Nat 4) 5).1 5).2 = some 5 ∧
    rtLookup intM (rtRemove intM (rtAdd intM (rtInit Nat 4) 5).1 5).1 5 = none :=
  round_trip intM (rtInit Nat 4) 5 5 (by decide)
    (fun _ r2 hr2 => absurd hr2 (List.not_mem_nil r2)) rfl

/-- Right shift distributes over xor. -/
theorem xor_shiftRight_distrib (x y n : Nat) :
    (x ^^^ y) >>> n = (x >>> n) ^^^ (y >>> n) :=
  Nat.eq_of_testBit_eq fun i => by
    simp [Nat.testBit_shiftRight, Nat.testBit_xor]

/-- One xor-fold step of the integer mixer is linear over xor. -/
theorem foldStep_linear (s x y : Nat) :
    (x ^^^ y) ^^^ ((x ^^^ y) >>> s) = (x ^^^ (x >>> s)) ^^^ (y ^^^ (y >>> s)) := by
  rw [xor_shiftRight_distrib]
  apply Nat.eq_of_testBit_eq
  intro i
  simp only [Nat.testBit_xor]
  rw [Bool.xor_assoc, Bool.xor_assoc]
  congr 1
  rw [← Bool.xor_assoc, ← Bool.xor_assoc, Bool.xor_comm (y.testBit i)]

/-- The mixer at `(MIN, MAX) = (4, 32)` is the composition of three
    xor-fold steps (by widths 16, 8, 4). -/
theorem integerHash_4_32 (v : Nat) :
    integerHash 4 32 v =
      ((v ^^^ v >>> 16) ^^^ (v ^^^ v >>> 16) >>> 8) ^^^
        (((v ^^^ v >>> 16) ^^^ (v ^^^ v >>> 16) >>> 8) >>> 4) := rfl

/-- The mixer at `(4, 32)` is linear over xor. -/
theorem integerHash_4_32_linear (x y : Nat) :
    integerHash 4 32 (x ^^^ y) = integerHash 4 32 x ^^^ integerHash 4 32 y := by
  rw [integerHash_4_32, integerHash_4_32 x, integerHash_4_32 y]
  have l1 := foldStep_linear 16 x y
  rw [l1]
  have l2 := foldStep_linear 8 (x ^^^ x >>> 16) (y ^^^ y >>> 16)
  rw [l2]
  exact foldStep_linear 4 _ _

/-- Flipping any single one of the 32 input bits changes the mixer output
    within its low four bits. -/
theorem avalanche_base :
    ∀ i, i < 32 → integerHash 4 32 (1 <<< i) &&& 15 ≠ 0 := by decide

/-- A value with a set bit among the low four keeps a set bit under any
    mask of width at least four. -/
theorem and_mask_lift (x k : Nat) (hk : 4 ≤ k) (h : x &&& 15 ≠ 0) :
    x &&& (2 ^ k - 1) ≠ 0 := by
  intro h0
  apply h
  have h15 : (2 ^ k - 1) &&& 15 = 15 := by
    have he : (15 : Nat) = 2 ^ 4 - 1 := rfl
    rw [he, Nat.and_pow_two_sub_one_eq_mod]
    obtain ⟨t, ht⟩ : ∃ t, k = 4 + t := ⟨k - 4, by omega⟩
    rw [ht, pow_add]
    have hpt : (0 : Nat) < 2 ^ t := Nat.two_pow_pos t
    omega
  calc x &&& 15 = x &&& ((2 ^ k - 1) &&& 15) := by rw [h15]
    _ = (x &&& (2 ^ k - 1)) &&& 15 := (Nat.land_assoc _ _ _).symm
    _ = 0 &&& 15 := by rw [h0]
    _ = 0 := Nat.zero_and 15

/-- C8: for the integer mixer with `(MIN_INDEX_WIDTH, MAX_ID_WIDTH) =
    (4, 32)`, two 32-bit inputs differing in exactly one bit give outputs
    that differ when masked to any width `k` with `4 <= k <= 32`. -/
theorem integerHash_avalanche (u v i k : Nat) (hu : u < 2 ^ 32) (hv : v < 2 ^ 32)
    (hi : i < 32) (hd : u ^^^ v = 1 <<< i) (hk1 : 4 ≤ k) (hk2 : k ≤ 32) :
    integerHash 4 32 u &&& (2 ^ k - 1) ≠ integerHash 4 32 v &&& (2 ^ k - 1) := by
  intro heq
  have hlin : integerHash 4 32 u ^^^ integerHash 4 32 v = integerHash 4 32 (1 <<< i) := by
    rw [← integerHash_4_32_linear, hd]
  have hbase := avalanche_base i hi
  have hne := and_mask_lift _ k hk1 hbase
  apply hne
  rw [← hlin, Nat.and_xor_distrib_right, heq]
  exact Nat.xor_self _

/-- C8 witness: inputs 0 and 1 differ in bit 0 and give mixer outputs that
    differ under the width-4 mask. -/
theorem integerHash_avalanche_witness :
    (0 : Nat) < 2 ^ 32 ∧ (1 : Nat) < 2 ^ 32 ∧ (0 : Nat) ^^^ 1 = 1 <<< 0 ∧
    integerHash 4 32 0 &&& (2 ^ 4 - 1) ≠ integerHash 4 32 1 &&& (2 ^ 4 - 1) :=
  ⟨by decide, by decide, by decide,
    integerHash_avalanche 0 1 0 4 (by decide) (by decide) (by decide) (by decide)
      (by decide) (by decide)⟩

/-- A record returned by `findDelete` compared equal to the query. -/
theorem rtFindDelete_some_matches {Rec ID : Type} (M : ResModel Rec ID) (idIn : ID) :
    ∀ (l : List Rec) (r2 : Rec), (rtFindDelete M l idIn).1 = some r2 →
      M.idEq (M.getId r2) idIn = true := by
  intro l
  induction l with
  | nil => simp [rtFindDelete]
  | cons p rest ih =>
    intro r2 h
    by_cases hc : M.idEq (M.getId p) idIn = true
    · simp only [rtFindDelete, if_pos hc] at h
      have hpr : p = r2 := by
        simpa using h
      rw [← hpr]
      exact hc
    · simp only [rtFindDelete, if_neg hc] at h
      exact ih r2 h

/-- When `add` succeeds, looking the identifier up immediately afterwards
    returns the record that was just linked at the head of its bucket. -/
theorem rtAdd_success_lookup {Rec ID : Type} (M : ResModel Rec ID) (tbl : ResTable Rec)
    (r : Rec) (hs : (rtAdd M tbl r).2 = 0)
    (hrefl : M.idEq (M.getId r) (M.getId r) = true) :
    rtLookup M (rtAdd M tbl r).1 (M.getId r) = some r := by
  simp only [rtAdd] at hs ⊢
  revert hs
  generalize (if tableSize tbl < tbl.nInUse then splitBucket M tbl else tbl) = t1
  intro hs
  by_cases hf : (rtFind M (t1.buckets (rtHash M t1 (M.getId r))) (M.getId r)).isSome = true
  · rw [if_pos hf] at hs
    simp at hs
  · rw [if_neg hf] at hs ⊢
    apply rtLookup_head M _ _ r (t1.buckets (rtHash M t1 (M.getId r)))
    · show updBuckets t1.buckets (rtHash M t1 (M.getId r))
        (r :: t1.buckets (rtHash M t1 (M.getId r))) (rtHash M t1 (M.getId r)) =
        r :: t1.buckets (rtHash M t1 (M.getId r))
      simp [updBuckets]
    · exact hrefl

/-- C10: `stringId` equality is false whenever either backing pointer is
    null - a null-backed identifier does not even equal itself - a
    null-backed identifier hashes to bucket index 0 in every table state,
    `lookup` and `remove` never return a null-backed record for any query,
    and `add` of a null-backed record never reports Duplicate. -/
theorem null_string_unreachable :
    (∀ s, strEq none s = false ∧ strEq s none = false) ∧
    (∀ tbl : ResTable (Option (List Nat)), rtHash Mstr tbl none = 0) ∧
    (∀ (tbl : ResTable (Option (List Nat))) (q r2 : Option (List Nat)),
      rtLookup Mstr tbl q = some r2 → r2 ≠ none) ∧
    (∀ (tbl : ResTable (Option (List Nat))) (q r2 : Option (List Nat)),
      (rtRemove Mstr tbl q).2 = some r2 → r2 ≠ none) ∧
    (∀ (tbl : ResTable (Option (List Nat))) (r2 : Option (List Nat)),
      r2 = none → (rtAdd Mstr tbl r2).2 = 0) := by
  have heqnone : ∀ x : Option (List Nat), strEq x none = false := by
    intro x
    cases x <;> rfl
  refine ⟨?_, ?_, ?_, ?_, ?_⟩
  · intro s
    exact ⟨by cases s <;> rfl, heqnone s⟩
  · intro tbl
    show hashVal (stringIdHash none) tbl.hashIxMask tbl.hashIxSplitMask
      tbl.nextSplitIndex = 0
    show hashVal 0 tbl.hashIxMask tbl.hashIxSplitMask tbl.nextSplitIndex = 0
    simp only [hashVal, Nat.zero_and]
    split <;> rfl
  · intro tbl q r2 h
    have hfu : List.find? (fun x => Mstr.idEq (Mstr.getId x) q)
        (tbl.buckets (rtHash Mstr tbl q)) = some r2 := h
    have hp := List.find?_some hfu
    intro hnone
    rw [hnone] at hp
    have hp2 : strEq none q = true := hp
    cases q <;> simp [strEq] at hp2
  · intro tbl q r2 h
    by_cases hf : (rtFindDelete Mstr (tbl.buckets (rtHash Mstr tbl q)) q).1.isSome = true
    · have h2 : (rtFindDelete Mstr (tbl.buckets (rtHash Mstr tbl q)) q).1 = some r2 := by
        have h3 : (rtRemove Mstr tbl q).2 =
            (rtFindDelete Mstr (tbl.buckets (rtHash Mstr tbl q)) q).1 := by
          simp [rtRemove, hf]
        rw [← h3]
        exact h
      have hp : strEq r2 q = true := rtFindDelete_some_matches Mstr q _ r2 h2
      intro hnone
      rw [hnone] at hp
      cases q <;> simp [strEq] at hp
    · have h3 : (rtRemove Mstr tbl q).2 = none := by
        simp [rtRemove, hf]
      rw [h3] at h
      exact absurd h (by simp)
  · intro tbl r2 hnone
    rw [hnone]
    simp only [rtAdd]
    rw [if_neg]
    have hfind : rtFind Mstr
        ((if tableSize tbl < tbl.nInUse then splitBucket Mstr tbl else tbl).buckets
          (rtHash Mstr (if tableSize tbl < tbl.nInUse then splitBucket Mstr tbl
            else tbl) (Mstr.getId none)))
        (Mstr.getId none) = none :=
      rtFind_eq_none Mstr _ _ fun x hx => heqnone x
    rw [hfind]
    simp

/-- C10 witness: adding a null-backed record to a fresh string-keyed table
    reports success, not Duplicate. -/
theorem null_string_unreachable_witness :
    (rtAdd Mstr (rtInit (Option (List Nat)) 8) none).2 = 0 :=
  null_string_unreachable.2.2.2.2 (rtInit (Option (List Nat)) 8) none rfl

/-- C3: after any sequence of `add` and `remove` operations (including the
    split steps they trigger), `nInUse` - the value `numEntriesInstalled`
    returns - equals the sum of the chain lengths of all buckets (chains
    beyond the occupied region are empty), and every live record sits in
    the bucket its identifier currently hashes to. -/
theorem table_invariants {Rec ID : Type} (M : ResModel Rec ID) (minW : Nat)
    (ops : List (TableOp Rec ID)) :
    numEntriesInstalled (runOps M minW ops) =
      chainCount (runOps M minW ops).buckets (tableSize (runOps M minW ops)) ∧
    (∀ j, tableSize (runOps M minW ops) ≤ j → (runOps M minW ops).buckets j = []) ∧
    ∀ j r, r ∈ (runOps M minW ops).buckets j →
      rtHash M (runOps M minW ops) (M.getId r) = j := by
  have h : RTInv M (runOps M minW ops) := by
    induction ops with
    | nil => exact rtInit_inv M minW
    | cons op rest ih =>
      cases op with
      | addOp r => exact rtAdd_inv M _ r ih
      | removeOp i => exact rtRemove_inv M _ i ih
  exact ⟨h.count, h.beyond, h.placed⟩

/-- C7 amended: a freshly constructed table is empty, has
    `hashIxSplitMask = 2*(hashIxMask+1) - 1` and `nextSplitIndex = 0`, and
    its bucket count `B = (hashIxMask + 1) + nextSplitIndex` equals
    `1 << minIndexBitWidth`; it is the allocated chain-head array
    (`hashIxSplitMask + 1` heads) that has `1 << (minIndexBitWidth + 1)`
    entries. -/
theorem rtInit_spec (Rec : Type) (minW : Nat) :
    (rtInit Rec minW).nInUse = 0 ∧
    (rtInit Rec minW).hashIxSplitMask = 2 * ((rtInit Rec minW).hashIxMask + 1) - 1 ∧
    (rtInit Rec minW).nextSplitIndex = 0 ∧
    tableSize (rtInit Rec minW) = 1 <<< minW ∧
    (rtInit Rec minW).hashIxSplitMask + 1 = 1 <<< (minW + 1) := by
  have h1 : (1 : Nat) <<< minW = 2 ^ minW := Nat.one_shiftLeft _
  have h2 : (1 : Nat) <<< (minW + 1) = 2 ^ (minW + 1) := Nat.one_shiftLeft _
  have h3 : (0 : Nat) < 2 ^ minW := Nat.two_pow_pos minW
  have h4 : (2 : Nat) ^ (minW + 1) = 2 ^ minW * 2 := pow_succ 2 minW
  refine ⟨rfl, ?_, rfl, ?_, ?_⟩ <;>
    simp only [rtInit, tableSize, h1, h2, h4] <;> omega

/-- C9: the chronological table starts its counter at 1; each `add`
    iteration stamps the record with the current counter value and
    post-increments the counter (modulo 2^32), retrying on Duplicate, so a
    successful `add` that reports id `a` has stored the caller record under
    id `a` (an immediate `lookup a` returns it), leaves the counter at
    `(a + 1) mod 2^32`, and `a` is the `j`-th consecutive counter value
    `(allocId + j) mod 2^32` for the number of retries `j`. -/
theorem chron_add_spec {A : Type} (fuel : Nat) (st : ChronState A) (item : A × Nat)
    (a : Nat) (hlt : st.allocId < uintCard) (h : (chronAdd fuel st item).2 = some a) :
    (chronInit A).allocId = 1 ∧
    rtLookup (Mchron A) (chronAdd fuel st item).1.table a = some (item.1, a) ∧
    (chronAdd fuel st item).1.allocId = (a + 1) % uintCard ∧
    ∃ j, j < fuel ∧ a = (st.allocId + j) % uintCard := by
  induction fuel generalizing st with
  | zero => simp [chronAdd] at h
  | succ fuel ih =>
    by_cases hs : (rtAdd (Mchron A) st.table (item.1, st.allocId)).2 = 0
    · have hstep : chronAdd (fuel + 1) st item =
          ({ table := (rtAdd (Mchron A) st.table (item.1, st.allocId)).1,
             allocId := (st.allocId + 1) % uintCard }, some st.allocId) := by
        simp [chronAdd, hs]
      rw [hstep] at h ⊢
      have ha : st.allocId = a := by
        simpa using h
      refine ⟨rfl, ?_, ?_, 0, Nat.succ_pos fuel, ?_⟩
      · have hlook := rtAdd_success_lookup (Mchron A) st.table (item.1, st.allocId) hs
          (by simp [Mchron])
        rw [← ha]
        exact hlook
      · show (st.allocId + 1) % uintCard = (a + 1) % uintCard
        rw [ha]
      · rw [← ha, Nat.add_zero, Nat.mod_eq_of_lt hlt]
    · have hstep : chronAdd (fuel + 1) st item =
          chronAdd fuel { table := (rtAdd (Mchron A) st.table (item.1, st.allocId)).1,
                          allocId := (st.allocId + 1) % uintCard } item := by
        simp [chronAdd, hs]
      rw [hstep] at h ⊢
      have hpos : (0 : Nat) < uintCard := Nat.two_pow_pos 32
      have hlt2 : (st.allocId + 1) % uintCard < uintCard := Nat.mod_lt _ hpos
      obtain ⟨h1, h2, h3, j, hj, hja⟩ := ih _ hlt2 h
      refine ⟨h1, h2, h3, j + 1, by omega, ?_⟩
      rw [hja]
      show ((st.allocId + 1) % uintCard + j) % uintCard = (st.allocId + (j + 1)) % uintCard
      rw [Nat.mod_add_mod]
      have harr : st.allocId + 1 + j = st.allocId + (j + 1) := by omega
      rw [harr]

/-- C9 witness: the first `add` on a fresh chronological table assigns
    id 1, stores the record under id 1 and advances the counter to 2. -/
theorem chron_add_spec_witness :
    (chronInit Nat).allocId = 1 ∧
    rtLookup (Mchron Nat) (chronAdd 1 (chronInit Nat) (7, 0)).1.table 1 = some (7, 1) ∧
    (chronAdd 1 (chronInit Nat) (7, 0)).1.allocId = (1 + 1) % uintCard ∧
    ∃ j, j < 1 ∧ 1 = ((chronInit Nat).allocId + j) % uintCard :=
  chron_add_spec 1 (chronInit Nat) (7, 0) 1 (by decide) (by decide)

end ResourceLib
